import Mathlib

/-!
Verification of the SPSC ring buffer in `src/src/lib.rs`.

The buffer is embedded shallowly: the `RingBuffer<T>` struct becomes a
Lean structure over `Nat` counters and a `List (Option T)` backing store,
and every method becomes a pure state-passing function translated from
the Rust body.  The sequential (quiescent, single-thread-pair) view is
taken: a blocking operation that would park forever on the current state
is modelled as an `Except.error`, and a `unwrap` panic likewise.
-/

namespace RingBufferSpec

/-- State of `RingBuffer<T>`: fixed `size`, the backing vector of
optional slots (`items`), and the two monotone position counters. -/
structure RingBuffer (T : Type) where
  size : Nat
  items : List (Option T)
  write_pos : Nat
  read_pos : Nat
deriving DecidableEq, Repr

variable {T : Type}

/-- `RingBuffer::new(size)`: `size` empty slots, both counters zero. -/
def new (T : Type) (size : Nat) : RingBuffer T :=
  { size := size
    items := List.replicate size none
    write_pos := 0
    read_pos := 0 }

/-- `push(item)`: blocking enqueue.  The Rust body parks in a loop while
`write_pos - read_pos == size`; at a quiescent point that loop never
exits, modelled as `.error`.  Otherwise the item is stored at slot
`write_pos % size` and `write_pos + 1` is published. -/
def push (item : T) (b : RingBuffer T) : Except String (RingBuffer T) :=
  if b.write_pos - b.read_pos = b.size then
    .error "push blocks forever: buffer full"
  else
    .ok { b with
            items := b.items.set (b.write_pos % b.size) (some item)
            write_pos := b.write_pos + 1 }

/-- `try_push(item)`: returns `none` (rejected) when
`write_pos - read_pos == size`, leaving the state alone; otherwise does
the same slot write and counter publication as `push` and returns
`some ()`. -/
def try_push (item : T) (b : RingBuffer T) : Option Unit × RingBuffer T :=
  if b.write_pos - b.read_pos = b.size then
    (none, b)
  else
    (some (), { b with
                  items := b.items.set (b.write_pos % b.size) (some item)
                  write_pos := b.write_pos + 1 })

/-- `pop()`: blocking dequeue.  Parks while `write_pos == read_pos`
(modelled as `.error` at a quiescent point); otherwise it takes the
element out of slot `read_pos % size` (leaving `None` there), publishes
`read_pos + 1` and unwraps the taken option (a `None` slot would panic,
also modelled as `.error`). -/
def pop (b : RingBuffer T) : Except String (T × RingBuffer T) :=
  if b.write_pos = b.read_pos then
    .error "pop blocks forever: buffer empty"
  else
    match b.items.getD (b.read_pos % b.size) none with
    | some item =>
        .ok (item, { b with
                       items := b.items.set (b.read_pos % b.size) none
                       read_pos := b.read_pos + 1 })
    | none => .error "panic: unwrap of a None slot"

/-- `try_pop()`: returns `none` (absent) when `write_pos == read_pos`,
leaving the state alone; otherwise the same slot take and counter
publication as `pop`, returning the element in `some`. -/
def try_pop (b : RingBuffer T) : Except String (Option T × RingBuffer T) :=
  if b.write_pos = b.read_pos then
    .ok (none, b)
  else
    match b.items.getD (b.read_pos % b.size) none with
    | some item =>
        .ok (some item, { b with
                            items := b.items.set (b.read_pos % b.size) none
                            read_pos := b.read_pos + 1 })
    | none => .error "panic: unwrap of a None slot"

/-- `write(buffer)`: blocking-pushes a clone of each element in order. -/
def write (buffer : List T) (b : RingBuffer T) : Except String (RingBuffer T) :=
  match buffer with
  | [] => .ok b
  | item :: rest => do
      let b1 ← push item b
      write rest b1

/-- `try_write(buffer)`: try-pushes clones in order, stops at the first
rejection, returns the number accepted. -/
def try_write (buffer : List T) (b : RingBuffer T) : Nat × RingBuffer T :=
  match buffer with
  | [] => (0, b)
  | item :: rest =>
      match try_push item b with
      | (none, b1) => (0, b1)
      | (some _, b1) =>
          let r := try_write rest b1
          (r.1 + 1, r.2)

/-- `read(size)`: blocking-pops exactly `size` elements in order. -/
def read (size : Nat) (b : RingBuffer T) : Except String (List T × RingBuffer T) :=
  match size with
  | 0 => .ok ([], b)
  | Nat.succ n => do
      let p ← pop b
      let r ← read n p.2
      return (p.1 :: r.1, r.2)

/-- `try_read(size)`: try-pops up to `size` elements, stopping at the
first absent result and returning the collected prefix. -/
def try_read (size : Nat) (b : RingBuffer T) : Except String (List T × RingBuffer T) :=
  match size with
  | 0 => .ok ([], b)
  | Nat.succ n =>
      match try_pop b with
      | .error e => .error e
      | .ok (none, b1) => .ok ([], b1)
      | .ok (some item, b1) => do
          let r ← try_read n b1
          return (item :: r.1, r.2)

/-- `len()`: the occupancy snapshot `write_pos - read_pos`. -/
def len (b : RingBuffer T) : Nat :=
  b.write_pos - b.read_pos

/-- The two counter invariants from the spec: `read_pos ≤ write_pos` and
`write_pos - read_pos ≤ capacity`. -/
def Inv (b : RingBuffer T) : Prop :=
  b.read_pos ≤ b.write_pos ∧ b.write_pos - b.read_pos ≤ b.size

/-- Well-formed (reachable) states: the counter invariants, a backing
store of exactly `size` slots, and every live logical position holding
an element in its physical slot. -/
def WF (b : RingBuffer T) : Prop :=
  b.items.length = b.size ∧
  b.read_pos ≤ b.write_pos ∧
  b.write_pos - b.read_pos ≤ b.size ∧
  ∀ p, p < b.write_pos → b.read_pos ≤ p → (b.items.getD (p % b.size) none).isSome = true

instance (b : RingBuffer T) : Decidable (WF b) := by
  unfold WF
  exact inferInstance

instance (b : RingBuffer T) : Decidable (Inv b) := by
  unfold Inv
  exact inferInstance

/-- A single-element operation of the producer/consumer API, used to
state the occupancy identity over whole histories. -/
inductive Op (T : Type) where
  | bpush (x : T)
  | tpush (x : T)
  | bpop
  | tpop
deriving DecidableEq

/-- Run one operation at a quiescent point, returning the new state and
how many pushes and pops completed (0 or 1 each); `none` when a blocking
operation would never return or a panic occurs. -/
def execOp (op : Op T) (b : RingBuffer T) : Option (RingBuffer T × Nat × Nat) :=
  match op with
  | .bpush x =>
      match push x b with
      | .ok b1 => some (b1, 1, 0)
      | .error _ => none
  | .tpush x =>
      match try_push x b with
      | (some _, b1) => some (b1, 1, 0)
      | (none, b1) => some (b1, 0, 0)
  | .bpop =>
      match pop b with
      | .ok (_, b1) => some (b1, 0, 1)
      | .error _ => none
  | .tpop =>
      match try_pop b with
      | .ok (some _, b1) => some (b1, 0, 1)
      | .ok (none, b1) => some (b1, 0, 0)
      | .error _ => none

/-- Run a trace of operations from a state, accumulating the numbers of
completed pushes and completed pops. -/
def runOps (t : List (Op T)) (b : RingBuffer T) : Option (RingBuffer T × Nat × Nat) :=
  match t with
  | [] => some (b, 0, 0)
  | op :: rest =>
      match execOp op b with
      | none => none
      | some (b1, dp, dq) =>
          match runOps rest b1 with
          | none => none
          | some (b2, np, nq) => some (b2, dp + np, dq + nq)

def c3s1 : RingBuffer Nat := (try_push 1 (new Nat 2)).2
def c3s2 : RingBuffer Nat := (try_push 2 c3s1).2
def c3s3 : RingBuffer Nat := (try_push 3 c3s2).2
def c3s4 : RingBuffer Nat := { size := 2, items := [none, some 2], write_pos := 2, read_pos := 1 }
def c3s5 : RingBuffer Nat := { size := 2, items := [none, none], write_pos := 2, read_pos := 2 }

def c9b : RingBuffer Nat := { size := 2, items := [some 7, none], write_pos := 1, read_pos := 0 }
def c9b1 : RingBuffer Nat := { size := 2, items := [some 7, some 9], write_pos := 2, read_pos := 0 }
def c9b2 : RingBuffer Nat := { size := 2, items := [none, none], write_pos := 1, read_pos := 1 }

/-- Two distinct logical positions less than a window of width `n` apart
occupy distinct physical slots. -/
theorem mod_ne_of_window {a b n : Nat} (hab : a < b) (h : b - a < n) :
    a % n ≠ b % n := by
  intro hmod
  have hd : n ∣ b - a := (Nat.modEq_iff_dvd' (Nat.le_of_lt hab)).mp hmod
  have hpos : 0 < b - a := Nat.sub_pos_of_lt hab
  exact absurd (Nat.le_of_dvd hpos hd) (Nat.not_le_of_lt h)

theorem getD_set_ne (l : List α) (i j : Nat) (a d : α) (h : i ≠ j) :
    (l.set i a).getD j d = l.getD j d := by
  simp [List.getD_eq_getElem?_getD, List.getElem?_set_ne h]

theorem getD_set_self (l : List α) (i : Nat) (a d : α) (h : i < l.length) :
    (l.set i a).getD i d = a := by
  simp [List.getD_eq_getElem?_getD, List.getElem?_set_eq_of_lt a h]

/-- Effect of `write xs` on any state with room for all of `xs`: it
succeeds, advances `write_pos` by `xs.length`, stores the elements of
`xs` in order in the slots of the fresh logical positions, and leaves
the slots of previously live positions alone. -/
theorem write_spec (xs : List T) (b : RingBuffer T)
    (hlen : b.items.length = b.size)
    (hrw : b.read_pos ≤ b.write_pos)
    (hocc : (b.write_pos - b.read_pos) + xs.length ≤ b.size) :
    ∃ b1, write xs b = .ok b1 ∧
      b1.size = b.size ∧
      b1.items.length = b.size ∧
      b1.read_pos = b.read_pos ∧
      b1.write_pos = b.write_pos + xs.length ∧
      (∀ i, i < xs.length →
        b1.items.getD ((b.write_pos + i) % b.size) none = xs[i]?) ∧
      (∀ p, b.read_pos ≤ p → p < b.write_pos →
        b1.items.getD (p % b.size) none = b.items.getD (p % b.size) none) := by
  induction xs generalizing b with
  | nil =>
      exact ⟨b, rfl, rfl, hlen, rfl, rfl, by intro i hi; simp at hi, by intro p _ _; rfl⟩
  | cons x rest ih =>
      have hne : b.write_pos - b.read_pos ≠ b.size := by
        simp only [List.length_cons] at hocc
        omega
      have hsize_pos : 0 < b.size := by
        simp only [List.length_cons] at hocc
        omega
      set b1 : RingBuffer T :=
        { b with
            items := b.items.set (b.write_pos % b.size) (some x)
            write_pos := b.write_pos + 1 } with hb1
      have hpush : push x b = .ok b1 := by
        simp [push, hne, hb1]
      have hlen1 : b1.items.length = b1.size := by
        simp [hb1, hlen]
      have hrw1 : b1.read_pos ≤ b1.write_pos := by
        simp [hb1]
        omega
      have hocc1 : (b1.write_pos - b1.read_pos) + rest.length ≤ b1.size := by
        simp only [hb1, List.length_cons] at hocc ⊢
        omega
      obtain ⟨b2, hw, hsz, hln, hrd, hwr, hnew, hold⟩ := ih b1 hlen1 hrw1 hocc1
      refine ⟨b2, ?_, ?_, ?_, ?_, ?_, ?_, ?_⟩
      · simp only [write, hpush]
        exact hw
      · simpa [hb1] using hsz
      · simpa [hb1] using hln
      · simpa [hb1] using hrd
      · simp only [hb1] at hwr
        simp [hwr, List.length_cons]
        omega
      · intro i hi
        match i with
        | 0 =>
            have hwlt : b.write_pos < b1.write_pos := by simp [hb1]
            have := hold b.write_pos (by simpa [hb1] using hrw) hwlt
            simp only [hb1] at this
            rw [Nat.add_zero]
            rw [this]
            have hidx : b.write_pos % b.size < b.items.length := by
              rw [hlen]
              exact Nat.mod_lt _ hsize_pos
            rw [getD_set_self _ _ _ _ hidx]
            simp
        | Nat.succ j =>
            have hj : j < rest.length := by
              simp only [List.length_cons] at hi
              omega
            have := hnew j hj
            simp only [hb1] at this
            have harith : b.write_pos + 1 + j = b.write_pos + (j + 1) := by omega
            rw [harith] at this
            rw [this]
            simp
      · intro p hp hplt
        have hlt1 : p < b1.write_pos := by
          simp [hb1]
          omega
        have := hold p (by simpa [hb1] using hp) hlt1
        simp only [hb1] at this
        rw [this]
        apply getD_set_ne
        intro hmod
        exact mod_ne_of_window hplt (by omega) hmod.symm

/-- Effect of `read n` on a state whose first `n` live positions hold
the elements of `ys`: it succeeds, returns `ys`, advances `read_pos` by
`n`, and leaves the slots of the remaining live positions alone. -/
theorem read_spec (n : Nat) (b : RingBuffer T) (ys : List T)
    (hlen : b.items.length = b.size)
    (hocc : b.write_pos - b.read_pos ≤ b.size)
    (hn : n ≤ b.write_pos - b.read_pos)
    (hys : ys.length = n)
    (hslots : ∀ i, i < n → b.items.getD ((b.read_pos + i) % b.size) none = ys[i]?) :
    ∃ b1, read n b = .ok (ys, b1) ∧
      b1.size = b.size ∧
      b1.items.length = b.size ∧
      b1.write_pos = b.write_pos ∧
      b1.read_pos = b.read_pos + n ∧
      (∀ p, b.read_pos + n ≤ p → p < b.write_pos →
        b1.items.getD (p % b.size) none = b.items.getD (p % b.size) none) := by
  induction n generalizing b ys with
  | zero =>
      have : ys = [] := List.eq_nil_of_length_eq_zero hys
      subst this
      exact ⟨b, rfl, rfl, hlen, rfl, rfl, by intro p _ _; rfl⟩
  | succ m ih =>
      match ys, hys with
      | y :: ys1, hys =>
        have hys1 : ys1.length = m := by simpa using hys
        have hlt : b.read_pos < b.write_pos := by omega
        have hne : b.write_pos ≠ b.read_pos := by omega
        have hsize_pos : 0 < b.size := by omega
        have hslot0 : b.items.getD (b.read_pos % b.size) none = some y := by
          have := hslots 0 (Nat.succ_pos m)
          simpa using this
        set b1 : RingBuffer T :=
          { b with
              items := b.items.set (b.read_pos % b.size) none
              read_pos := b.read_pos + 1 } with hb1
        have hpop : pop b = .ok (y, b1) := by
          simp only [pop, if_neg hne, hslot0, hb1]
        have hlen1 : b1.items.length = b1.size := by simp [hb1, hlen]
        have hocc1 : b1.write_pos - b1.read_pos ≤ b1.size := by
          simp [hb1]
          omega
        have hm1 : m ≤ b1.write_pos - b1.read_pos := by
          simp [hb1]
          omega
        have hslots1 : ∀ i, i < m →
            b1.items.getD ((b1.read_pos + i) % b1.size) none = ys1[i]? := by
          intro i hi
          have hnei : b.read_pos % b.size ≠ (b.read_pos + (i + 1)) % b.size := by
            apply mod_ne_of_window
            · omega
            · omega
          have harith : b1.read_pos + i = b.read_pos + (i + 1) := by simp [hb1]; omega
          simp only [hb1] at harith ⊢
          rw [harith, getD_set_ne _ _ _ _ _ (by simpa [hb1] using hnei)]
          have := hslots (i + 1) (by omega)
          rw [this]
          simp
        obtain ⟨b2, hr, hsz, hln, hwr, hrd, hold⟩ := ih b1 ys1 hlen1 hocc1 hm1 hys1 hslots1
        refine ⟨b2, ?_, ?_, ?_, ?_, ?_, ?_⟩
        · simp [read, hpop, hr, Except.bind, Except.map, Bind.bind, Functor.map]
          rfl
        · simpa [hb1] using hsz
        · simpa [hb1] using hln
        · simpa [hb1] using hwr
        · simp only [hb1] at hrd
          simp [hrd]
          omega
        · intro p hp hplt
          have h1 : b1.read_pos + m ≤ p := by simp [hb1]; omega
          have := hold p h1 (by simpa [hb1] using hplt)
          simp only [hb1] at this
          rw [this]
          apply getD_set_ne
          apply mod_ne_of_window
          · omega
          · omega

/-- C1: for every sequence `xs` and every empty buffer
(`write_pos = read_pos`) of capacity at least `xs.length`, writing all
of `xs` (`write`, i.e. repeated `push`) and then reading `xs.length`
elements (`read`, i.e. repeated `pop`) succeeds and returns exactly `xs`
in order. -/
theorem C1_round_trip (T : Type) (xs : List T) (b : RingBuffer T)
    (hlen : b.items.length = b.size)
    (hempty : b.write_pos = b.read_pos)
    (hcap : xs.length ≤ b.size) :
    ∃ b1 b2, write xs b = .ok b1 ∧ read xs.length b1 = .ok (xs, b2) := by
  obtain ⟨b1, hw, hsz, hln, hrd, hwr, hnew, _⟩ :=
    write_spec xs b hlen (by omega) (by omega)
  have hln1 : b1.items.length = b1.size := by rw [hln, hsz]
  have hocc1 : b1.write_pos - b1.read_pos ≤ b1.size := by
    rw [hwr, hrd, hsz]
    omega
  have hn1 : xs.length ≤ b1.write_pos - b1.read_pos := by
    rw [hwr, hrd]
    omega
  have hslots1 : ∀ i, i < xs.length →
      b1.items.getD ((b1.read_pos + i) % b1.size) none = xs[i]? := by
    intro i hi
    have := hnew i hi
    rw [hrd, hsz, ← hempty]
    exact this
  obtain ⟨b2, hr, _⟩ := read_spec xs.length b1 xs hln1 hocc1 hn1 rfl hslots1
  exact ⟨b1, b2, hw, hr⟩

theorem C1_round_trip_witness :
    (new Nat 3).items.length = (new Nat 3).size ∧
    (new Nat 3).write_pos = (new Nat 3).read_pos ∧
    [7, 8, 9].length ≤ (new Nat 3).size ∧
    ∃ b1 b2, write [7, 8, 9] (new Nat 3) = .ok b1 ∧
      read [7, 8, 9].length b1 = .ok ([7, 8, 9], b2) :=
  ⟨by decide, by decide, by decide,
   C1_round_trip Nat [7, 8, 9] (new Nat 3) (by decide) (by decide) (by decide)⟩

/-- C2: `try_push` rejects (returns `none`) exactly when the occupancy
`write_pos - read_pos` equals the capacity, mutating nothing in that
case; on acceptance it stores the item at slot `write_pos % size`,
increments `write_pos` by one, and returns `some ()`. -/
theorem C2_try_push_spec (T : Type) (x : T) (b : RingBuffer T)
    (h : b.read_pos ≤ b.write_pos) :
    ((try_push x b).1 = none ↔ b.write_pos - b.read_pos = b.size) ∧
    ((try_push x b).1 = none → (try_push x b).2 = b) ∧
    ((try_push x b).1 = some () →
      (try_push x b).2 =
        { b with
            items := b.items.set (b.write_pos % b.size) (some x)
            write_pos := b.write_pos + 1 }) := by
  unfold try_push
  by_cases hfull : b.write_pos - b.read_pos = b.size <;> simp [hfull]

theorem C2_try_push_spec_witness :
    (new Nat 1).read_pos ≤ (new Nat 1).write_pos ∧
    (((try_push 5 (new Nat 1)).1 = none ↔
        (new Nat 1).write_pos - (new Nat 1).read_pos = (new Nat 1).size) ∧
      ((try_push 5 (new Nat 1)).1 = none → (try_push 5 (new Nat 1)).2 = new Nat 1) ∧
      ((try_push 5 (new Nat 1)).1 = some () →
        (try_push 5 (new Nat 1)).2 =
          { new Nat 1 with
              items := (new Nat 1).items.set ((new Nat 1).write_pos % (new Nat 1).size)
                (some 5)
              write_pos := (new Nat 1).write_pos + 1 })) :=
  ⟨by decide, C2_try_push_spec Nat 5 (new Nat 1) (by decide)⟩

/-- C3: on a well-formed state, `try_pop` returns `none` and leaves the
state unchanged exactly when `write_pos = read_pos`; otherwise it
returns the oldest live element (the one in slot `read_pos % size`) and
increments `read_pos` by one.  The concrete capacity-2 scenario
`try_push 1/2/3` then `try_pop` three times yields
accepted, accepted, rejected, present 1, present 2, absent. -/
theorem C3_try_pop_spec (T : Type) (b : RingBuffer T) (hwf : WF b) :
    ((b.write_pos = b.read_pos → try_pop b = .ok (none, b)) ∧
     (b.write_pos ≠ b.read_pos → ∃ x,
        b.items.getD (b.read_pos % b.size) none = some x ∧
        try_pop b = .ok (some x,
          { b with
              items := b.items.set (b.read_pos % b.size) none
              read_pos := b.read_pos + 1 }))) ∧
    ((try_push 1 (new Nat 2)).1 = some () ∧
     (try_push 2 c3s1).1 = some () ∧
     (try_push 3 c3s2).1 = none ∧
     try_pop c3s3 = .ok (some 1, c3s4) ∧
     try_pop c3s4 = .ok (some 2, c3s5) ∧
     try_pop c3s5 = .ok (none, c3s5)) := by
  constructor
  · constructor
    · intro hemp
      simp [try_pop, hemp]
    · intro hne
      have hlt : b.read_pos < b.write_pos := by
        have := hwf.2.1
        omega
      have hsome := hwf.2.2.2 b.read_pos hlt (Nat.le_refl _)
      obtain ⟨x, hx⟩ := Option.isSome_iff_exists.mp hsome
      refine ⟨x, hx, ?_⟩
      simp only [try_pop, if_neg hne, hx]
  · exact ⟨by decide, by decide, by decide, rfl, rfl, rfl⟩

theorem C3_try_pop_spec_witness :
    WF c3s3 ∧
    (c3s3.write_pos ≠ c3s3.read_pos → ∃ x,
      c3s3.items.getD (c3s3.read_pos % c3s3.size) none = some x ∧
      try_pop c3s3 = .ok (some x,
        { c3s3 with
            items := c3s3.items.set (c3s3.read_pos % c3s3.size) none
            read_pos := c3s3.read_pos + 1 })) :=
  ⟨by decide, ((C3_try_pop_spec Nat c3s3 (by decide)).1).2⟩

/-- C8 counterexample: `new 0` is not rejected — it returns the
ordinary (empty, zero-capacity) buffer value, on which `try_pop`
behaves like on any empty buffer. -/
theorem C8_counterexample :
    new Nat 0 = { size := 0, items := [], write_pos := 0, read_pos := 0 } ∧
    try_pop (new Nat 0) = .ok (none, new Nat 0) := by
  constructor
  · rfl
  · rfl

/-- C8 (amended): `new 0` is accepted and returns an empty buffer of
capacity 0; such a buffer can never accept an element — `try_push`
always rejects and blocking `push` never returns (parks forever). -/
theorem C8_amended_zero_capacity (T : Type) (x : T) :
    (new T 0).size = 0 ∧
    (new T 0).write_pos = 0 ∧
    (new T 0).read_pos = 0 ∧
    (try_push x (new T 0)).1 = none ∧
    push x (new T 0) = .error "push blocks forever: buffer full" := by
  exact ⟨rfl, rfl, rfl, rfl, rfl⟩

/-- C10: `new 0` succeeds, and on the zero-capacity buffer `try_push`
always rejects, `try_pop` is always absent, `try_write` accepts zero
elements and `try_read` returns the empty list — all leaving the state
unchanged. -/
theorem C10_zero_capacity_ops (T : Type) (x : T) (xs : List T) (n : Nat) :
    try_push x (new T 0) = (none, new T 0) ∧
    try_pop (new T 0) = .ok (none, new T 0) ∧
    try_write xs (new T 0) = (0, new T 0) ∧
    try_read n (new T 0) = .ok ([], new T 0) := by
  refine ⟨rfl, rfl, ?_, ?_⟩
  · cases xs with
    | nil => rfl
    | cons y ys => rfl
  · cases n with
    | zero => rfl
    | succ m => rfl

/-- C9: minimal footprint.  On a well-formed state: whenever
`try_push` succeeds (equivalently, whenever `push` does not block) it
changes only `write_pos` and the slot at the old `write_pos % size`;
whenever `try_pop` returns an element (equivalently, whenever `pop`
does not block) it changes only `read_pos` and the slot at the old
`read_pos % size`, which it leaves empty; `len` is a pure observation
of the counters.  The parts are independent implications, so each
applies on any state where that operation succeeds (empty, full, or
capacity-1 buffers included). -/
theorem C9_frame (T : Type) (x : T) (b : RingBuffer T) (hwf : WF b) :
    (∀ b1, try_push x b = (some (), b1) →
      push x b = .ok b1 ∧
      b1.size = b.size ∧
      b1.read_pos = b.read_pos ∧
      b1.write_pos = b.write_pos + 1 ∧
      b1.items.getD (b.write_pos % b.size) none = some x ∧
      (∀ j, j ≠ b.write_pos % b.size → b1.items.getD j none = b.items.getD j none)) ∧
    (∀ b1, push x b = .ok b1 → try_push x b = (some (), b1)) ∧
    (∀ y b2, try_pop b = .ok (some y, b2) →
      pop b = .ok (y, b2) ∧
      b2.size = b.size ∧
      b2.write_pos = b.write_pos ∧
      b2.read_pos = b.read_pos + 1 ∧
      b2.items.getD (b.read_pos % b.size) none = none ∧
      (∀ j, j ≠ b.read_pos % b.size → b2.items.getD j none = b.items.getD j none)) ∧
    (∀ y b2, pop b = .ok (y, b2) → try_pop b = .ok (some y, b2)) ∧
    len b = b.write_pos - b.read_pos := by
  refine ⟨?_, ?_, ?_, ?_, rfl⟩
  · intro b1 hp
    have hfull : b.write_pos - b.read_pos ≠ b.size := by
      intro hc
      simp [try_push, hc] at hp
    have hsize_pos : 0 < b.size := by
      have := hwf.2.2.1
      omega
    simp only [try_push, if_neg hfull] at hp
    have hb1 : b1 = { b with
        items := b.items.set (b.write_pos % b.size) (some x)
        write_pos := b.write_pos + 1 } := by
      have := congrArg Prod.snd hp
      simpa using this.symm
    subst hb1
    have hwidx : b.write_pos % b.size < b.items.length := by
      rw [hwf.1]
      exact Nat.mod_lt _ hsize_pos
    refine ⟨by simp [push, if_neg hfull], rfl, rfl, rfl, ?_, ?_⟩
    · exact getD_set_self _ _ _ _ hwidx
    · intro j hj
      exact getD_set_ne _ _ _ _ _ (fun hc => hj hc.symm)
  · intro b1 hp
    by_cases hfull : b.write_pos - b.read_pos = b.size
    · simp [push, hfull] at hp
    · simp only [push, if_neg hfull] at hp
      cases hp
      simp [try_push, if_neg hfull]
  · intro y b2 hq
    have hemp : b.write_pos ≠ b.read_pos := by
      intro hc
      simp [try_pop, hc] at hq
    have hlt : b.read_pos < b.write_pos := by
      have := hwf.2.1
      omega
    have hsize_pos : 0 < b.size := by
      have := hwf.2.2.1
      omega
    obtain ⟨z, hz⟩ :=
      Option.isSome_iff_exists.mp (hwf.2.2.2 b.read_pos hlt (Nat.le_refl _))
    simp only [try_pop, if_neg hemp, hz] at hq
    rw [Except.ok.injEq, Prod.mk.injEq, Option.some.injEq] at hq
    obtain ⟨h1, h2⟩ := hq
    subst h1
    have hridx : b.read_pos % b.size < b.items.length := by
      rw [hwf.1]
      exact Nat.mod_lt _ hsize_pos
    refine ⟨?_, by rw [← h2], by rw [← h2], by rw [← h2], ?_, ?_⟩
    · simp only [pop, if_neg hemp, hz]
      rw [h2]
    · rw [← h2]
      exact getD_set_self _ _ _ _ hridx
    · intro j hj
      rw [← h2]
      exact getD_set_ne _ _ _ _ _ (fun hc => hj hc.symm)
  · intro y b2 hq
    have hemp : b.write_pos ≠ b.read_pos := by
      intro hc
      simp [pop, hc] at hq
    cases hz : b.items.getD (b.read_pos % b.size) none with
    | none =>
        simp only [pop, if_neg hemp, hz] at hq
        exact Except.noConfusion hq
    | some z =>
        simp only [pop, if_neg hemp, hz] at hq
        rw [Except.ok.injEq, Prod.mk.injEq] at hq
        obtain ⟨h1, h2⟩ := hq
        subst h1
        simp only [try_pop, if_neg hemp, hz, h2]

theorem C9_frame_witness :
    WF c9b ∧
    push 9 c9b = .ok c9b1 ∧
    c9b1.items.getD (c9b.write_pos % c9b.size) none = some 9 ∧
    pop c9b = .ok (7, c9b2) ∧
    c9b2.items.getD (c9b.read_pos % c9b.size) none = none :=
  ⟨by decide,
   ((C9_frame Nat 9 c9b (by decide)).1 c9b1 (by decide)).1,
   ((C9_frame Nat 9 c9b (by decide)).1 c9b1 (by decide)).2.2.2.2.1,
   ((C9_frame Nat 9 c9b (by decide)).2.2.1 7 c9b2 rfl).1,
   ((C9_frame Nat 9 c9b (by decide)).2.2.1 7 c9b2 rfl).2.2.2.2.1⟩

theorem push_ok_counters (x : T) (b b1 : RingBuffer T) (h : push x b = .ok b1) :
    b.write_pos - b.read_pos ≠ b.size ∧
    b1.size = b.size ∧ b1.read_pos = b.read_pos ∧ b1.write_pos = b.write_pos + 1 := by
  by_cases hfull : b.write_pos - b.read_pos = b.size
  · simp [push, hfull] at h
  · simp only [push, if_neg hfull] at h
    cases h
    exact ⟨hfull, rfl, rfl, rfl⟩

theorem try_push_counters (x : T) (b : RingBuffer T) :
    (try_push x b).2.size = b.size ∧
    (try_push x b).2.read_pos = b.read_pos ∧
    ((try_push x b).1 = none → (try_push x b).2 = b) ∧
    ((try_push x b).1 = some () →
      b.write_pos - b.read_pos ≠ b.size ∧
      (try_push x b).2.write_pos = b.write_pos + 1) ∧
    b.write_pos ≤ (try_push x b).2.write_pos := by
  by_cases hfull : b.write_pos - b.read_pos = b.size
  · simp [try_push, hfull]
  · simp [try_push, hfull]

theorem pop_ok_counters (b : RingBuffer T) (y : T) (b1 : RingBuffer T)
    (h : pop b = .ok (y, b1)) :
    b.write_pos ≠ b.read_pos ∧
    b1.size = b.size ∧ b1.write_pos = b.write_pos ∧ b1.read_pos = b.read_pos + 1 := by
  by_cases hemp : b.write_pos = b.read_pos
  · simp [pop, hemp] at h
  · simp only [pop, if_neg hemp] at h
    cases hslot : b.items.getD (b.read_pos % b.size) none with
    | none =>
        rw [hslot] at h
        cases h
    | some z =>
        rw [hslot] at h
        cases h
        exact ⟨hemp, rfl, rfl, rfl⟩

theorem try_pop_ok_counters (b : RingBuffer T) (r : Option T) (b1 : RingBuffer T)
    (h : try_pop b = .ok (r, b1)) :
    b1.size = b.size ∧
    b1.write_pos = b.write_pos ∧
    b.read_pos ≤ b1.read_pos ∧
    (r = none → b1 = b) ∧
    (∀ z, r = some z → b.write_pos ≠ b.read_pos ∧ b1.read_pos = b.read_pos + 1) := by
  by_cases hemp : b.write_pos = b.read_pos
  · simp only [try_pop, if_pos hemp] at h
    cases h
    simp
  · simp only [try_pop, if_neg hemp] at h
    cases hslot : b.items.getD (b.read_pos % b.size) none with
    | none =>
        rw [hslot] at h
        cases h
    | some z =>
        rw [hslot] at h
        cases h
        refine ⟨rfl, rfl, Nat.le_succ _, ?_, ?_⟩
        · intro hc
          cases hc
        · intro w hw
          cases hw
          exact ⟨hemp, rfl⟩

theorem write_ok_counters (xs : List T) (b b1 : RingBuffer T)
    (h : write xs b = .ok b1) :
    b1.size = b.size ∧ b1.read_pos = b.read_pos ∧
    b1.write_pos = b.write_pos + xs.length ∧ (Inv b → Inv b1) := by
  induction xs generalizing b with
  | nil =>
      cases h
      exact ⟨rfl, rfl, rfl, fun hI => hI⟩
  | cons x rest ih =>
      cases hp : push x b with
      | error e =>
          rw [write, hp] at h
          cases h
      | ok bmid =>
          rw [write, hp] at h
          obtain ⟨hfull, hsz, hrd, hwr⟩ := push_ok_counters x b bmid hp
          obtain ⟨hsz1, hrd1, hwr1, hinv1⟩ := ih bmid h
          refine ⟨by omega, by omega, by simp only [List.length_cons]; omega, ?_⟩
          intro hI
          apply hinv1
          unfold Inv at hI ⊢
          omega

theorem read_ok_counters (n : Nat) (b : RingBuffer T) (v : List T) (b1 : RingBuffer T)
    (h : read n b = .ok (v, b1)) :
    b1.size = b.size ∧ b1.write_pos = b.write_pos ∧
    b1.read_pos = b.read_pos + n ∧ v.length = n ∧ (Inv b → Inv b1) := by
  induction n generalizing b v with
  | zero =>
      cases h
      exact ⟨rfl, rfl, rfl, rfl, fun hI => hI⟩
  | succ m ih =>
      cases hp : pop b with
      | error e =>
          simp only [read, hp, Except.bind, Bind.bind] at h
          exact Except.noConfusion h
      | ok p =>
          obtain ⟨y, bmid⟩ := p
          cases hr : read m bmid with
          | error e =>
              simp only [read, hp, hr, Except.bind, Bind.bind, Except.map, Functor.map] at h
              exact Except.noConfusion h
          | ok q =>
              obtain ⟨v2, b2⟩ := q
              simp only [read, hp, hr, Except.bind, Bind.bind, Except.map, Functor.map,
                pure, Except.pure] at h
              cases h
              obtain ⟨hemp, hsz, hwr, hrd⟩ := pop_ok_counters b y bmid hp
              obtain ⟨hsz1, hwr1, hrd1, hlen1, hinv1⟩ := ih bmid v2 hr
              refine ⟨by omega, by omega, by omega, by simp [List.length_cons, hlen1], ?_⟩
              intro hI
              apply hinv1
              unfold Inv at hI ⊢
              omega

theorem try_write_counters (xs : List T) (b : RingBuffer T) :
    (try_write xs b).2.size = b.size ∧
    (try_write xs b).2.read_pos = b.read_pos ∧
    (try_write xs b).2.write_pos = b.write_pos + (try_write xs b).1 ∧
    (try_write xs b).1 ≤ xs.length ∧
    (Inv b → Inv (try_write xs b).2) := by
  induction xs generalizing b with
  | nil =>
      exact ⟨rfl, rfl, rfl, Nat.le_refl 0, fun hI => hI⟩
  | cons x rest ih =>
      by_cases hfull : b.write_pos - b.read_pos = b.size
      · have hp : try_push x b = (none, b) := by simp [try_push, hfull]
        simp [try_write, hp, imp_self]
      · have hp : try_push x b =
            (some (), { b with
                items := b.items.set (b.write_pos % b.size) (some x)
                write_pos := b.write_pos + 1 }) := by
          simp [try_push, hfull]
        simp only [try_write, hp]
        obtain ⟨hsz1, hrd1, hwr1, hc1, hinv1⟩ :=
          ih { b with
                items := b.items.set (b.write_pos % b.size) (some x)
                write_pos := b.write_pos + 1 }
        refine ⟨by simpa using hsz1, by simpa using hrd1, ?_, ?_, ?_⟩
        · simp only at hwr1 ⊢
          omega
        · simp only [List.length_cons]
          omega
        · intro hI
          apply hinv1
          unfold Inv at hI ⊢
          simp only
          omega

theorem try_read_ok_counters (n : Nat) (b : RingBuffer T) (v : List T) (b1 : RingBuffer T)
    (h : try_read n b = .ok (v, b1)) :
    b1.size = b.size ∧ b1.write_pos = b.write_pos ∧
    b1.read_pos = b.read_pos + v.length ∧ v.length ≤ n ∧ (Inv b → Inv b1) := by
  induction n generalizing b v with
  | zero =>
      cases h
      exact ⟨rfl, rfl, rfl, Nat.le_refl 0, fun hI => hI⟩
  | succ m ih =>
      cases hq : try_pop b with
      | error e =>
          simp only [try_read, hq] at h
          exact Except.noConfusion h
      | ok p =>
          obtain ⟨r, bmid⟩ := p
          obtain ⟨hsz, hwr, hrle, hnone, hsome⟩ := try_pop_ok_counters b r bmid hq
          cases r with
          | none =>
              simp only [try_read, hq] at h
              cases h
              rw [hnone rfl]
              exact ⟨rfl, rfl, rfl, Nat.zero_le _, fun hI => hI⟩
          | some z =>
              obtain ⟨hemp, hrd⟩ := hsome z rfl
              cases hr : try_read m bmid with
              | error e =>
                  simp only [try_read, hq, hr, Except.bind, Bind.bind, Except.map,
                    Functor.map] at h
                  exact Except.noConfusion h
              | ok q =>
                  obtain ⟨v2, b2⟩ := q
                  simp only [try_read, hq, hr, Except.bind, Bind.bind, Except.map,
                    Functor.map, pure, Except.pure] at h
                  cases h
                  obtain ⟨hsz1, hwr1, hrd1, hlen1, hinv1⟩ := ih bmid v2 hr
                  refine ⟨by omega, by omega, by simp only [List.length_cons]; omega,
                    by simp only [List.length_cons]; omega, ?_⟩
                  intro hI
                  apply hinv1
                  unfold Inv at hI ⊢
                  omega

/-- C4: starting from any state satisfying the counter invariants
(`read_pos ≤ write_pos` and `write_pos - read_pos ≤ capacity`), every
operation yields a state still satisfying them; each successful
push-type step increments `write_pos` by exactly one leaving `read_pos`
unchanged, each successful pop-type step increments `read_pos` by
exactly one leaving `write_pos` unchanged, and no operation ever
decreases either counter. -/
theorem C4_invariants (T : Type) (b : RingBuffer T) (x : T) (xs : List T) (n : Nat)
    (hI : Inv b) :
    (∀ b1, push x b = .ok b1 →
      Inv b1 ∧ b1.write_pos = b.write_pos + 1 ∧ b1.read_pos = b.read_pos) ∧
    (Inv (try_push x b).2 ∧
      b.read_pos ≤ (try_push x b).2.read_pos ∧
      b.write_pos ≤ (try_push x b).2.write_pos ∧
      ((try_push x b).1 = some () →
        (try_push x b).2.write_pos = b.write_pos + 1 ∧
        (try_push x b).2.read_pos = b.read_pos)) ∧
    (∀ y b1, pop b = .ok (y, b1) →
      Inv b1 ∧ b1.read_pos = b.read_pos + 1 ∧ b1.write_pos = b.write_pos) ∧
    (∀ r b1, try_pop b = .ok (r, b1) →
      Inv b1 ∧ b.read_pos ≤ b1.read_pos ∧ b.write_pos ≤ b1.write_pos ∧
      (∀ z, r = some z → b1.read_pos = b.read_pos + 1 ∧ b1.write_pos = b.write_pos)) ∧
    (∀ b1, write xs b = .ok b1 →
      Inv b1 ∧ b.read_pos ≤ b1.read_pos ∧ b.write_pos ≤ b1.write_pos) ∧
    (∀ c b1, try_write xs b = (c, b1) →
      Inv b1 ∧ b.read_pos ≤ b1.read_pos ∧ b.write_pos ≤ b1.write_pos) ∧
    (∀ v b1, read n b = .ok (v, b1) →
      Inv b1 ∧ b.read_pos ≤ b1.read_pos ∧ b.write_pos ≤ b1.write_pos) ∧
    (∀ v b1, try_read n b = .ok (v, b1) →
      Inv b1 ∧ b.read_pos ≤ b1.read_pos ∧ b.write_pos ≤ b1.write_pos) ∧
    len b = b.write_pos - b.read_pos := by
  have hI2 := hI
  unfold Inv at hI2
  refine ⟨?_, ?_, ?_, ?_, ?_, ?_, ?_, ?_, rfl⟩
  · intro b1 h
    obtain ⟨hfull, hsz, hrd, hwr⟩ := push_ok_counters x b b1 h
    exact ⟨by unfold Inv; omega, hwr, hrd⟩
  · obtain ⟨hsz, hrd, hnone, hsome, hwle⟩ := try_push_counters x b
    refine ⟨?_, by omega, hwle, ?_⟩
    · cases hacc : (try_push x b).1 with
      | none =>
          rw [hnone hacc]
          exact hI
      | some u =>
          cases u
          obtain ⟨hfull, hwr⟩ := hsome hacc
          unfold Inv
          omega
    · intro hacc
      obtain ⟨hfull, hwr⟩ := hsome hacc
      exact ⟨hwr, hrd⟩
  · intro y b1 h
    obtain ⟨hemp, hsz, hwr, hrd⟩ := pop_ok_counters b y b1 h
    exact ⟨by unfold Inv; omega, hrd, hwr⟩
  · intro r b1 h
    obtain ⟨hsz, hwr, hrle, hnone, hsome⟩ := try_pop_ok_counters b r b1 h
    refine ⟨?_, hrle, by omega, ?_⟩
    · cases r with
      | none =>
          rw [hnone rfl]
          exact hI
      | some z =>
          obtain ⟨hemp, hrd⟩ := hsome z rfl
          unfold Inv
          omega
    · intro z hz
      obtain ⟨hemp, hrd⟩ := hsome z hz
      exact ⟨hrd, hwr⟩
  · intro b1 h
    obtain ⟨hsz, hrd, hwr, hinv⟩ := write_ok_counters xs b b1 h
    exact ⟨hinv hI, by omega, by omega⟩
  · intro c b1 h
    obtain ⟨hsz, hrd, hwr, hc, hinv⟩ := try_write_counters xs b
    have h1 : (try_write xs b).1 = c := by rw [h]
    have h2 : (try_write xs b).2 = b1 := by rw [h]
    rw [h2] at hsz hrd hinv
    rw [h2, h1] at hwr
    exact ⟨hinv hI, by omega, by omega⟩
  · intro v b1 h
    obtain ⟨hsz, hwr, hrd, hlen, hinv⟩ := read_ok_counters n b v b1 h
    exact ⟨hinv hI, by omega, by omega⟩
  · intro v b1 h
    obtain ⟨hsz, hwr, hrd, hlen, hinv⟩ := try_read_ok_counters n b v b1 h
    exact ⟨hinv hI, by omega, by omega⟩

theorem C4_invariants_witness :
    Inv (new Nat 2) ∧
    (Inv (try_push 1 (new Nat 2)).2 ∧
      (new Nat 2).read_pos ≤ (try_push 1 (new Nat 2)).2.read_pos ∧
      (new Nat 2).write_pos ≤ (try_push 1 (new Nat 2)).2.write_pos ∧
      ((try_push 1 (new Nat 2)).1 = some () →
        (try_push 1 (new Nat 2)).2.write_pos = (new Nat 2).write_pos + 1 ∧
        (try_push 1 (new Nat 2)).2.read_pos = (new Nat 2).read_pos)) :=
  ⟨by decide, (C4_invariants Nat (new Nat 2) 1 [] 0 (by decide)).2.1⟩

theorem execOp_counters (op : Op T) (b b1 : RingBuffer T) (dp dq : Nat)
    (h : execOp op b = some (b1, dp, dq)) :
    b1.write_pos = b.write_pos + dp ∧ b1.read_pos = b.read_pos + dq ∧
    (Inv b → Inv b1) := by
  cases op with
  | bpush x =>
      cases hp : push x b with
      | error e =>
          simp only [execOp, hp] at h
          exact Option.noConfusion h
      | ok bmid =>
          simp only [execOp, hp] at h
          rw [Option.some.injEq, Prod.mk.injEq, Prod.mk.injEq] at h
          obtain ⟨h1, h2, h3⟩ := h
          subst h1
          subst h2
          subst h3
          obtain ⟨hfull, hsz, hrd, hwr⟩ := push_ok_counters x b bmid hp
          exact ⟨hwr, by omega, fun hI => by unfold Inv at hI ⊢; omega⟩
  | tpush x =>
      by_cases hfull : b.write_pos - b.read_pos = b.size
      · have hp : try_push x b = (none, b) := by simp [try_push, hfull]
        simp only [execOp, hp] at h
        rw [Option.some.injEq, Prod.mk.injEq, Prod.mk.injEq] at h
        obtain ⟨h1, h2, h3⟩ := h
        subst h1
        subst h2
        subst h3
        exact ⟨rfl, rfl, fun hI => hI⟩
      · have hp : try_push x b =
            (some (), { b with
                items := b.items.set (b.write_pos % b.size) (some x)
                write_pos := b.write_pos + 1 }) := by
          simp [try_push, hfull]
        simp only [execOp, hp] at h
        rw [Option.some.injEq, Prod.mk.injEq, Prod.mk.injEq] at h
        obtain ⟨h1, h2, h3⟩ := h
        subst h1
        subst h2
        subst h3
        exact ⟨rfl, rfl, fun hI => by unfold Inv at hI ⊢; simp only; omega⟩
  | bpop =>
      cases hp : pop b with
      | error e =>
          simp only [execOp, hp] at h
          exact Option.noConfusion h
      | ok p =>
          obtain ⟨y, bmid⟩ := p
          simp only [execOp, hp] at h
          rw [Option.some.injEq, Prod.mk.injEq, Prod.mk.injEq] at h
          obtain ⟨h1, h2, h3⟩ := h
          subst h1
          subst h2
          subst h3
          obtain ⟨hemp, hsz, hwr, hrd⟩ := pop_ok_counters b y bmid hp
          exact ⟨by omega, hrd, fun hI => by unfold Inv at hI ⊢; omega⟩
  | tpop =>
      cases hq : try_pop b with
      | error e =>
          simp only [execOp, hq] at h
          exact Option.noConfusion h
      | ok p =>
          obtain ⟨r, bmid⟩ := p
          obtain ⟨hsz, hwr, hrle, hnone, hsome⟩ := try_pop_ok_counters b r bmid hq
          cases r with
          | none =>
              simp only [execOp, hq] at h
              rw [Option.some.injEq, Prod.mk.injEq, Prod.mk.injEq] at h
              obtain ⟨h1, h2, h3⟩ := h
              subst h1
              subst h2
              subst h3
              rw [hnone rfl]
              exact ⟨rfl, rfl, fun hI => hI⟩
          | some z =>
              obtain ⟨hemp, hrd⟩ := hsome z rfl
              simp only [execOp, hq] at h
              rw [Option.some.injEq, Prod.mk.injEq, Prod.mk.injEq] at h
              obtain ⟨h1, h2, h3⟩ := h
              subst h1
              subst h2
              subst h3
              exact ⟨by omega, by omega, fun hI => by unfold Inv at hI ⊢; omega⟩

theorem runOps_counters (t : List (Op T)) (b b1 : RingBuffer T) (np nq : Nat)
    (h : runOps t b = some (b1, np, nq)) :
    b1.write_pos = b.write_pos + np ∧ b1.read_pos = b.read_pos + nq ∧
    (Inv b → Inv b1) := by
  induction t generalizing b np nq with
  | nil =>
      rw [runOps, Option.some.injEq, Prod.mk.injEq, Prod.mk.injEq] at h
      obtain ⟨h1, h2, h3⟩ := h
      subst h1
      subst h2
      subst h3
      exact ⟨rfl, rfl, fun hI => hI⟩
  | cons op rest ih =>
      cases he : execOp op b with
      | none =>
          simp only [runOps, he] at h
          exact Option.noConfusion h
      | some q =>
          obtain ⟨bmid, dp, dq⟩ := q
          cases hrr : runOps rest bmid with
          | none =>
              simp only [runOps, he, hrr] at h
              exact Option.noConfusion h
          | some q2 =>
              obtain ⟨b2, np2, nq2⟩ := q2
              simp only [runOps, he, hrr] at h
              rw [Option.some.injEq, Prod.mk.injEq, Prod.mk.injEq] at h
              obtain ⟨h1, h2, h3⟩ := h
              subst h1
              subst h2
              subst h3
              obtain ⟨hw1, hr1, hinv1⟩ := execOp_counters op b bmid dp dq he
              obtain ⟨hw2, hr2, hinv2⟩ := ih bmid np2 nq2 hrr
              exact ⟨by omega, by omega, fun hI => hinv2 (hinv1 hI)⟩

/-- C5: over any quiescent history of (blocking or non-blocking) pushes
and pops run from a fresh buffer, `len` equals the number of completed
pushes minus the number of completed pops; and after `C` successful
pushes from empty on a capacity-`C` buffer, `len` is `C` and `try_push`
rejects. -/
theorem C5_len_identity (T : Type) (C : Nat) (t : List (Op T)) (b1 : RingBuffer T)
    (np nq : Nat) (xs : List T) (y : T)
    (hrun : runOps t (new T C) = some (b1, np, nq))
    (hxs : xs.length = C) :
    (len b1 = np - nq ∧ nq ≤ np) ∧
    (∃ bC, write xs (new T C) = .ok bC ∧ len bC = C ∧ (try_push y bC).1 = none) := by
  constructor
  · obtain ⟨hw, hr, hinv⟩ := runOps_counters t (new T C) b1 np nq hrun
    have hInew : Inv (new T C) := by
      unfold Inv new
      simp
    have hI1 := hinv hInew
    unfold Inv at hI1
    unfold len
    unfold new at hw hr
    simp only at hw hr
    omega
  · have hlen : (new T C).items.length = (new T C).size := by
      simp [new]
    have hrw : (new T C).read_pos ≤ (new T C).write_pos := Nat.le_refl 0
    have hocc : ((new T C).write_pos - (new T C).read_pos) + xs.length ≤ (new T C).size := by
      simp [new, hxs]
    obtain ⟨bC, hwok, hsz, hln, hrd, hwr, _, _⟩ := write_spec xs (new T C) hlen hrw hocc
    refine ⟨bC, hwok, ?_, ?_⟩
    · unfold len
      unfold new at hwr hrd
      simp only at hwr hrd
      rw [hwr, hrd, hxs]
      simp
    · have hfull : bC.write_pos - bC.read_pos = bC.size := by
        unfold new at hwr hrd
        simp only at hwr hrd
        rw [hwr, hrd, hsz]
        simp [new, hxs]
      simp [try_push, hfull]

theorem C5_len_identity_witness :
    runOps [Op.tpush 1, Op.tpush 2, Op.tpop] (new Nat 2) =
      some ({ size := 2, items := [none, some 2], write_pos := 2, read_pos := 1 }, 2, 1) ∧
    ([5, 6] : List Nat).length = 2 ∧
    ((len { size := 2, items := [none, some 2], write_pos := 2, read_pos := 1 } = 2 - 1 ∧
        1 ≤ 2) ∧
      ∃ bC, write [5, 6] (new Nat 2) = .ok bC ∧ len bC = 2 ∧ (try_push 9 bC).1 = none) :=
  ⟨by decide, by decide,
   C5_len_identity Nat 2 [Op.tpush 1, Op.tpush 2, Op.tpop]
     { size := 2, items := [none, some 2], write_pos := 2, read_pos := 1 }
     2 1 [5, 6] 9 (by decide) (by decide)⟩

/-- C6: `try_write` accepts exactly
`min xs.length (capacity - occupancy)` elements: it pushes that prefix
of `xs` in order into the fresh slots, advances `write_pos` by exactly
that count (so nothing past the first rejection is transferred), and
returns the count. -/
theorem C6_try_write_spec (T : Type) (xs : List T) (b : RingBuffer T)
    (hlen : b.items.length = b.size)
    (hrw : b.read_pos ≤ b.write_pos)
    (hocc : b.write_pos - b.read_pos ≤ b.size) :
    ∃ b1, try_write xs b =
        (min xs.length (b.size - (b.write_pos - b.read_pos)), b1) ∧
      b1.size = b.size ∧
      b1.items.length = b.size ∧
      b1.read_pos = b.read_pos ∧
      b1.write_pos = b.write_pos + min xs.length (b.size - (b.write_pos - b.read_pos)) ∧
      (∀ i, i < min xs.length (b.size - (b.write_pos - b.read_pos)) →
        b1.items.getD ((b.write_pos + i) % b.size) none = xs[i]?) ∧
      (∀ p, b.read_pos ≤ p → p < b.write_pos →
        b1.items.getD (p % b.size) none = b.items.getD (p % b.size) none) := by
  induction xs generalizing b with
  | nil =>
      refine ⟨b, ?_, rfl, hlen, rfl, ?_, ?_, ?_⟩
      · rw [try_write]
        have : min ([] : List T).length (b.size - (b.write_pos - b.read_pos)) = 0 := by
          simp
        rw [this]
      · have : min ([] : List T).length (b.size - (b.write_pos - b.read_pos)) = 0 := by
          simp
        rw [this]
        omega
      · intro i hi
        have : min ([] : List T).length (b.size - (b.write_pos - b.read_pos)) = 0 := by
          simp
        omega
      · intro p _ _
        rfl
  | cons x rest ih =>
      by_cases hfull : b.write_pos - b.read_pos = b.size
      · have hp : try_push x b = (none, b) := by simp [try_push, hfull]
        have hmin : min (x :: rest).length (b.size - (b.write_pos - b.read_pos)) = 0 := by
          omega
        refine ⟨b, ?_, rfl, hlen, rfl, by omega, by omega, fun p _ _ => rfl⟩
        simp only [try_write, hp, hmin]
      · have hsize_pos : 0 < b.size := by omega
        have hp : try_push x b =
            (some (), { b with
                items := b.items.set (b.write_pos % b.size) (some x)
                write_pos := b.write_pos + 1 }) := by
          simp [try_push, hfull]
        set bmid : RingBuffer T :=
          { b with
              items := b.items.set (b.write_pos % b.size) (some x)
              write_pos := b.write_pos + 1 } with hbmid
        have hlen1 : bmid.items.length = bmid.size := by simp [hbmid, hlen]
        have hrw1 : bmid.read_pos ≤ bmid.write_pos := by simp [hbmid]; omega
        have hocc1 : bmid.write_pos - bmid.read_pos ≤ bmid.size := by
          simp [hbmid]
          omega
        obtain ⟨b2, heq, hsz, hln, hrd, hwr, hnew, hold⟩ := ih bmid hlen1 hrw1 hocc1
        have hremmid : bmid.size - (bmid.write_pos - bmid.read_pos) =
            (b.size - (b.write_pos - b.read_pos)) - 1 := by
          simp [hbmid]
          omega
        have hcnt : min rest.length (bmid.size - (bmid.write_pos - bmid.read_pos)) + 1 =
            min (x :: rest).length (b.size - (b.write_pos - b.read_pos)) := by
          rw [hremmid]
          simp only [List.length_cons]
          omega
        refine ⟨b2, ?_, by simpa [hbmid] using hsz, by simpa [hbmid] using hln,
          by simpa [hbmid] using hrd, ?_, ?_, ?_⟩
        · simp only [try_write, hp, heq]
          rw [hcnt]
        · rw [← hcnt]
          simp only [hbmid] at hwr
          omega
        · intro i hi
          rw [← hcnt] at hi
          match i with
          | 0 =>
              have hwlt : b.write_pos < bmid.write_pos := by simp [hbmid]
              have := hold b.write_pos (by simpa [hbmid] using hrw) hwlt
              simp only [hbmid] at this
              rw [Nat.add_zero, this]
              have hidx : b.write_pos % b.size < b.items.length := by
                rw [hlen]
                exact Nat.mod_lt _ hsize_pos
              rw [getD_set_self _ _ _ _ hidx]
              simp
          | Nat.succ j =>
              have hj : j < min rest.length (bmid.size - (bmid.write_pos - bmid.read_pos)) := by
                omega
              have := hnew j hj
              simp only [hbmid] at this
              have harith : b.write_pos + 1 + j = b.write_pos + (j + 1) := by omega
              rw [harith] at this
              rw [this]
              simp
        · intro p hp2 hplt
          have hlt1 : p < bmid.write_pos := by
            simp [hbmid]
            omega
          have := hold p (by simpa [hbmid] using hp2) hlt1
          simp only [hbmid] at this
          rw [this]
          apply getD_set_ne
          intro hmod
          exact mod_ne_of_window hplt (by omega) hmod.symm

theorem C6_try_write_spec_witness :
    (new Nat 2).items.length = (new Nat 2).size ∧
    (new Nat 2).read_pos ≤ (new Nat 2).write_pos ∧
    (new Nat 2).write_pos - (new Nat 2).read_pos ≤ (new Nat 2).size ∧
    ∃ b1, try_write [1, 2, 3] (new Nat 2) =
        (min ([1, 2, 3] : List Nat).length
          ((new Nat 2).size - ((new Nat 2).write_pos - (new Nat 2).read_pos)), b1) ∧
      b1.size = (new Nat 2).size ∧
      b1.items.length = (new Nat 2).size ∧
      b1.read_pos = (new Nat 2).read_pos ∧
      b1.write_pos = (new Nat 2).write_pos + min ([1, 2, 3] : List Nat).length
        ((new Nat 2).size - ((new Nat 2).write_pos - (new Nat 2).read_pos)) ∧
      (∀ i, i < min ([1, 2, 3] : List Nat).length
          ((new Nat 2).size - ((new Nat 2).write_pos - (new Nat 2).read_pos)) →
        b1.items.getD (((new Nat 2).write_pos + i) % (new Nat 2).size) none =
          ([1, 2, 3] : List Nat)[i]?) ∧
      (∀ p, (new Nat 2).read_pos ≤ p → p < (new Nat 2).write_pos →
        b1.items.getD (p % (new Nat 2).size) none =
          (new Nat 2).items.getD (p % (new Nat 2).size) none) :=
  ⟨by decide, by decide, by decide,
   C6_try_write_spec Nat [1, 2, 3] (new Nat 2) (by decide) (by decide) (by decide)⟩

/-- A successful element-returning `try_pop` preserves well-formedness. -/
theorem try_pop_wf (b : RingBuffer T) (z : T) (b1 : RingBuffer T)
    (hwf : WF b) (h : try_pop b = .ok (some z, b1)) :
    WF b1 ∧ b1.size = b.size ∧ b1.write_pos = b.write_pos ∧
    b1.read_pos = b.read_pos + 1 ∧
    b.items.getD (b.read_pos % b.size) none = some z ∧
    (∀ p, b.read_pos + 1 ≤ p → p < b.write_pos →
      b1.items.getD (p % b.size) none = b.items.getD (p % b.size) none) := by
  have hemp : b.write_pos ≠ b.read_pos := by
    intro hc
    simp [try_pop, hc] at h
  have hlt : b.read_pos < b.write_pos := by
    have := hwf.2.1
    omega
  obtain ⟨z2, hz⟩ := Option.isSome_iff_exists.mp (hwf.2.2.2 b.read_pos hlt (Nat.le_refl _))
  simp only [try_pop, if_neg hemp, hz] at h
  rw [Except.ok.injEq, Prod.mk.injEq, Option.some.injEq] at h
  obtain ⟨h1, h2⟩ := h
  subst h1
  have hpres : ∀ p, b.read_pos + 1 ≤ p → p < b.write_pos →
      b1.items.getD (p % b.size) none = b.items.getD (p % b.size) none := by
    intro p hp hplt
    rw [← h2]
    simp only
    apply getD_set_ne
    apply mod_ne_of_window
    · omega
    · have := hwf.2.2.1
      omega
  refine ⟨?_, by rw [← h2], by rw [← h2], by rw [← h2], hz, hpres⟩
  unfold WF at hwf ⊢
  rw [← h2]
  simp only [List.length_set]
  refine ⟨hwf.1, by omega, by omega, ?_⟩
  intro p hp hp2
  have hne : b.read_pos % b.size ≠ p % b.size := by
    apply mod_ne_of_window
    · omega
    · have := hwf.2.2.1
      omega
  rw [getD_set_ne _ _ _ _ _ hne]
  exact hwf.2.2.2 p hp (by omega)

/-- C7: on a well-formed buffer holding `m` live elements, `try_read n`
succeeds and returns exactly the `min n m` oldest live elements in FIFO
order (never more than `n`), advancing `read_pos` by exactly that
count. -/
theorem C7_try_read_spec (T : Type) (n : Nat) (b : RingBuffer T) (hwf : WF b) :
    ∃ v b1, try_read n b = .ok (v, b1) ∧
      v.length = min n (len b) ∧
      (∀ i, i < v.length →
        b.items.getD ((b.read_pos + i) % b.size) none = v[i]?) ∧
      b1.read_pos = b.read_pos + v.length ∧
      b1.write_pos = b.write_pos := by
  induction n generalizing b with
  | zero =>
      refine ⟨[], b, rfl, ?_, ?_, rfl, rfl⟩
      · simp
      · intro i hi
        simp at hi
  | succ m ih =>
      by_cases hemp : b.write_pos = b.read_pos
      · have hq : try_pop b = .ok (none, b) := by simp [try_pop, hemp]
        refine ⟨[], b, ?_, ?_, ?_, rfl, rfl⟩
        · simp only [try_read, hq]
        · unfold len
          simp
          omega
        · intro i hi
          simp at hi
      · have hlt : b.read_pos < b.write_pos := by
          have := hwf.2.1
          omega
        obtain ⟨z, hz⟩ :=
          Option.isSome_iff_exists.mp (hwf.2.2.2 b.read_pos hlt (Nat.le_refl _))
        have hq : try_pop b = .ok (some z,
            { b with
                items := b.items.set (b.read_pos % b.size) none
                read_pos := b.read_pos + 1 }) := by
          simp only [try_pop, if_neg hemp, hz]
        obtain ⟨hwf1, hsz1, hwr1, hrd1, hslot0, hpres⟩ :=
          try_pop_wf b z _ hwf hq
        obtain ⟨v2, b2, hread, hlen2, hslots2, hrd2, hwr2⟩ := ih _ hwf1
        refine ⟨z :: v2, b2, ?_, ?_, ?_, ?_, ?_⟩
        · simp only [try_read, hq, hread, Except.bind, Bind.bind, Except.map,
            Functor.map, pure, Except.pure]
        · unfold len at hlen2 ⊢
          rw [hwr1, hrd1] at hlen2
          simp only [List.length_cons]
          omega
        · intro i hi
          match i with
          | 0 =>
              rw [Nat.add_zero, hz]
              simp
          | Nat.succ j =>
              simp only [List.length_cons] at hi
              have hj : j < v2.length := by omega
              have hjs := hslots2 j hj
              rw [hrd1] at hjs
              have hpj := hpres (b.read_pos + 1 + j) (by omega) ?hbound
              case hbound =>
                have hle : j + 1 ≤ v2.length := by omega
                have hlb : v2.length ≤ len { b with
                    items := b.items.set (b.read_pos % b.size) none
                    read_pos := b.read_pos + 1 } := by
                  rw [hlen2]
                  omega
                unfold len at hlb
                simp only at hlb
                omega
              rw [hpj] at hjs
              have harith : b.read_pos + 1 + j = b.read_pos + (j + 1) := by omega
              rw [harith] at hjs
              rw [hjs]
              simp
        · rw [hrd2, hrd1]
          simp only [List.length_cons]
          omega
        · rw [hwr2, hwr1]

theorem C7_try_read_spec_witness :
    WF c9b ∧
    ∃ v b1, try_read 5 c9b = .ok (v, b1) ∧
      v.length = min 5 (len c9b) ∧
      (∀ i, i < v.length →
        c9b.items.getD ((c9b.read_pos + i) % c9b.size) none = v[i]?) ∧
      b1.read_pos = c9b.read_pos + v.length ∧
      b1.write_pos = c9b.write_pos :=
  ⟨by decide, C7_try_read_spec Nat 5 c9b (by decide)⟩

end RingBufferSpec
